import Mathlib

/-!
# Verification of the c3-projection module pipeline

Shallow embedding of the `c3-projection` repository's module aggregation /
dependency calculation pipeline:

* `Module` entity (src/domain/entities/Module.ts)
* `ModuleAggregator` (src/domain/services/ModuleAggregator.ts)
* `ModuleDependencyCalculator` (src/domain/services/ModuleDependencyCalculator.ts)
* `ModuleProjection` (src/domain/entities/ModuleProjection.ts)

JavaScript `Map` objects are embedded as association lists with in-place
update semantics (`jsMapSet`), JavaScript `Set` objects as insertion-ordered
duplicate-free lists (`jsSetAdd`).  The external Node.js `path` module is
abstracted as a `PathOps` record of string functions; a concrete POSIX-style
implementation `posixOps` is supplied for evaluating concrete instances.
Recursive graph traversals are embedded with an explicit fuel parameter; we
prove that the fuel bound used in the wrappers is sufficient (the traversal
stabilizes), which is the shallow-embedding reading of termination.
-/

namespace C3

/-- JavaScript `Map<string, α>` as an association list: `set` updates the
value in place when the key exists (keeping its position) and appends
otherwise, exactly like `Map.prototype.set`. -/
abbrev JsMap (α : Type) : Type := List (String × α)

/-- `Map.prototype.set`: replace in place or append. -/
def jsMapSet {α : Type} (k : String) (v : α) : JsMap α → JsMap α
  | [] => [(k, v)]
  | (k', v') :: rest =>
    if k' = k then (k, v) :: rest else (k', v') :: jsMapSet k v rest

/-- `Map.prototype.get`. -/
def jsMapGet {α : Type} (k : String) (m : JsMap α) : Option α :=
  (m.find? (fun p => p.1 = k)).map (·.2)

/-- `Map.prototype.has`. -/
def jsMapHas {α : Type} (k : String) (m : JsMap α) : Bool :=
  (jsMapGet k m).isSome

/-- The keys of a `JsMap`. -/
def jsMapKeys {α : Type} (m : JsMap α) : List String := m.map (·.1)

/-- The values of a `JsMap` (`Map.prototype.values`, insertion order). -/
def jsMapValues {α : Type} (m : JsMap α) : List α := m.map (·.2)

/-- JavaScript `Set<string>.add`: append if not already present. -/
def jsSetAdd (x : String) (s : List String) : List String :=
  if x ∈ s then s else s ++ [x]

/-! String primitives.  JavaScript string methods are modelled over the
character lists underlying Lean strings (structural recursion throughout,
so that concrete scenarios evaluate by `decide`). -/

/-- `s.startsWith(pre)`. -/
def strStartsWith (s pre : String) : Bool :=
  pre.data.isPrefixOf s.data

/-- `s.endsWith(suf)`. -/
def strEndsWith (s suf : String) : Bool :=
  suf.data.reverse.isPrefixOf s.data.reverse

/-- Drop the first `n` characters of `s`. -/
def strDrop (s : String) (n : Nat) : String :=
  String.mk (s.data.drop n)

/-- Drop the last `n` characters of `s`. -/
def strDropRight (s : String) (n : Nat) : String :=
  String.mk (s.data.take (s.data.length - n))

/-- Apply `f` to every character of `s`. -/
def strMap (f : Char → Char) (s : String) : String :=
  String.mk (s.data.map f)

/-- `s.replace(/suf$/, rep)`: replace the suffix `suf` by `rep` when present,
otherwise leave the string unchanged. -/
def replaceSuffix (s suf rep : String) : String :=
  if strEndsWith s suf then strDropRight s suf.data.length ++ rep else s

/-- Split a character list at every occurrence of `c` (JavaScript
`split(c)` core). -/
def splitCharAux (c : Char) : List Char → List Char → List (List Char)
  | acc, [] => [acc.reverse]
  | acc, x :: xs =>
    if x = c then acc.reverse :: splitCharAux c [] xs
    else splitCharAux c (x :: acc) xs

/-- Split a string at every occurrence of the character `c`. -/
def splitChar (c : Char) (s : String) : List String :=
  (splitCharAux c [] s.data).map String.mk

/-- Join strings with a separator (JavaScript `Array.prototype.join`). -/
def joinSep (sep : String) : List String → String
  | [] => ""
  | [x] => x
  | x :: xs => x ++ sep ++ joinSep sep xs

/-- Abstraction of the Node.js `path` module functions used by the sources.
The repository calls `path.dirname`, `path.resolve`, `path.normalize`,
`path.relative`, `path.join`, `path.basename` and `path.sep`; they are
external library functions, so the embedding takes them as parameters. -/
structure PathOps where
  dirname : String → String
  normalize : String → String
  resolve : String → String → String
  relative : String → String → String
  join2 : String → String → String
  join3 : String → String → String → String
  basename : String → String
  sep : String

/-- Collapse `.`/`..`/empty segments of a `/`-separated path (POSIX
normalization core); `isAbs` tells whether leading `..` may be dropped. -/
def normSegs (isAbs : Bool) : List String → List String → List String
  | stack, [] => stack.reverse
  | stack, seg :: rest =>
    if seg = "" ∨ seg = "." then normSegs isAbs stack rest
    else if seg = ".." then
      match stack with
      | top :: stk =>
        if top = ".." then normSegs isAbs (".." :: top :: stk) rest
        else normSegs isAbs stk rest
      | [] => if isAbs then normSegs isAbs [] rest else normSegs isAbs [".."] rest
    else normSegs isAbs (seg :: stack) rest

/-- POSIX `path.normalize` model. -/
def posixNormalize (s : String) : String :=
  let isAbs := strStartsWith s "/"
  let segs := normSegs isAbs [] (splitChar '/' s)
  let body := joinSep "/" segs
  if isAbs then "/" ++ body else if body = "" then "." else body

/-- POSIX `path.dirname` model: the path with its last segment removed. -/
def posixDirname (s : String) : String :=
  let segs := (splitChar '/' s).filter (fun seg => seg ≠ "")
  let isAbs := strStartsWith s "/"
  match segs.dropLast with
  | [] => if isAbs then "/" else "."
  | ds => (if isAbs then "/" else "") ++ joinSep "/" ds

/-- POSIX `path.resolve(dir, target)` model (ignoring the process working
directory, which the repository never relies on). -/
def posixResolve (dir target : String) : String :=
  if strStartsWith target "/" then posixNormalize target
  else posixNormalize (dir ++ "/" ++ target)

/-- POSIX `path.relative(from, to)` model, adequate for the cases exercised
here: strip the `from` prefix. -/
def posixRelative (base s : String) : String :=
  if strStartsWith s (base ++ "/") then strDrop s (base.data.length + 1)
  else if s = base then "" else s

/-- POSIX `path.join` model (two arguments). -/
def posixJoin2 (a b : String) : String := posixNormalize (a ++ "/" ++ b)

/-- POSIX `path.join` model (three arguments). -/
def posixJoin3 (a b c : String) : String := posixNormalize (a ++ "/" ++ b ++ "/" ++ c)

/-- POSIX `path.basename` model. -/
def posixBasename (s : String) : String :=
  match ((splitChar '/' s).filter (fun seg => seg ≠ "")).getLast? with
  | some seg => seg
  | none => ""

/-- A concrete `PathOps` instance used to evaluate concrete scenarios. -/
def posixOps : PathOps :=
  { dirname := posixDirname
    normalize := posixNormalize
    resolve := posixResolve
    relative := posixRelative
    join2 := posixJoin2
    join3 := posixJoin3
    basename := posixBasename
    sep := "/" }

/-! ## Property graph (external input, c3-parsing `Node`/`Edge` records) -/

/-- `Node.metadata` fields used by this repository. -/
structure NodeMetadata where
  filePath : Option String
  startLine : Option Nat
  endLine : Option Nat
deriving DecidableEq, Repr

/-- A property-graph node (`c3-parsing` `Node`): `type` and `labels` are
string-tagged; `node.isFromDomain(d)` is modelled by a `domain` string. -/
structure GNode where
  id : String
  type : String
  labels : List String
  domain : String
  metadata : NodeMetadata
deriving DecidableEq, Repr

/-- A property-graph edge (`c3-parsing` `Edge`). -/
structure GEdge where
  id : String
  type : String
  fromNodeId : String
  toNodeId : String
deriving DecidableEq, Repr

/-- The property graph: node and edge lists (`getNodes`/`getEdges`). -/
structure PropertyGraph where
  nodes : List GNode
  edges : List GEdge
deriving DecidableEq, Repr

/-- `NodeType.FILE` of c3-parsing: the sources also compare
`node.type === 'file'` literally, fixing the tag string. -/
def NodeTypeFILE : String := "file"

/-- `EdgeType.IMPORTS` of c3-parsing (external enum; the exact tag string is
irrelevant, only equality of edge types with it matters). -/
def EdgeTypeIMPORTS : String := "imports"

/-! ## Module entity (src/domain/entities/Module.ts) -/

/-- `ModuleMetrics`.  `totalLines` is an integer: the source computes it as a
JavaScript number difference with no clamping. -/
structure ModuleMetrics where
  fileCount : Nat
  totalLines : Int
  dependencyCount : Nat
  dependentCount : Nat
deriving DecidableEq, Repr

/-- The `Module` entity.  `dependencies`/`dependents` are JavaScript `Set`s,
embedded as insertion-ordered duplicate-free lists mutated via `jsSetAdd`. -/
structure Module where
  id : String
  name : String
  path : String
  files : List String
  dependencies : List String
  dependents : List String
  metrics : ModuleMetrics
deriving DecidableEq, Repr

/-- `Module.addDependency`. -/
def Module.addDependency (m : Module) (moduleId : String) : Module :=
  { m with dependencies := jsSetAdd moduleId m.dependencies }

/-- `Module.addDependent`. -/
def Module.addDependent (m : Module) (moduleId : String) : Module :=
  { m with dependents := jsSetAdd moduleId m.dependents }

/-- `Module.getDependencyCount` (`this.dependencies.size`). -/
def Module.getDependencyCount (m : Module) : Nat := m.dependencies.length

/-- `Module.getDependentCount` (`this.dependents.size`). -/
def Module.getDependentCount (m : Module) : Nat := m.dependents.length

/-- A placeholder module used for (unreachable) out-of-bounds list reads. -/
def defaultModule : Module :=
  { id := "", name := "", path := "", files := [], dependencies := []
    dependents := []
    metrics := { fileCount := 0, totalLines := 0, dependencyCount := 0, dependentCount := 0 } }

/-! ## Module aggregator (src/domain/services/ModuleAggregator.ts) -/

/-- `AggregationLevel` (src/domain/value-objects/AggregationLevel.ts). -/
inductive AggregationLevel where
  | DIRECTORY
  | TOP_LEVEL
  | PACKAGE
  | CUSTOM
deriving DecidableEq, Repr

/-- `AggregationConfig`.  The optional fields are normalized: a missing
`includeTests` is falsy and a missing `excludePatterns` iterates nothing. -/
structure AggregationConfig where
  level : AggregationLevel
  includeTests : Bool
  excludePatterns : List String
deriving DecidableEq, Repr

/-- `filePath.includes(pattern)` (substring containment). -/
def strIncludes (s pat : String) : Bool :=
  (s.toList.tails).any (fun t => pat.toList.isPrefixOf t)

/-- `ModuleAggregator.shouldIncludeFile`. -/
def shouldIncludeFile (config : AggregationConfig) (node : GNode) : Bool :=
  let filePath := (node.metadata.filePath).getD ""
  if config.excludePatterns.any (fun pattern => strIncludes filePath pattern) then
    false
  else if !config.includeTests && "Test" ∈ node.labels then
    false
  else
    true

/-- `ModuleAggregator.getModulePathForFile`.  The `PACKAGE` case performs a
filesystem walk (`findNearestPackage`, `fs.access`); that I/O is abstracted
as the oracle `pkg : filePath → rootPath → modulePath`.  The `default:`
branch of the source's `switch` returns `path.dirname(filePath)`; in the
closed embedding of the enum this is the `CUSTOM` case. -/
def getModulePathForFile (pOps : PathOps) (pkg : String → String → String)
    (file : GNode) (rootPath : String) (level : AggregationLevel) : String :=
  let filePath := (file.metadata.filePath).getD ""
  match level with
  | .DIRECTORY => pOps.dirname filePath
  | .TOP_LEVEL =>
    let relativePath := pOps.relative rootPath filePath
    let parts := (relativePath.splitOn pOps.sep).filter (fun p => p ≠ "")
    if parts.length ≥ 3 then
      pOps.join3 rootPath (parts.getD 0 "") (parts.getD 1 "")
    else if parts.length ≥ 2 then
      pOps.join2 rootPath (parts.getD 0 "")
    else
      rootPath
  | .PACKAGE => pkg filePath rootPath
  | .CUSTOM => pOps.dirname filePath

/-- `ModuleAggregator.groupFilesByLevel`: group the files by their module
path, preserving first-seen order of module paths and file order in each
group (a `Map<string, Node[]>` with pushes). -/
def groupFilesByLevel (pOps : PathOps) (pkg : String → String → String)
    (files : List GNode) (rootPath : String) (level : AggregationLevel) :
    JsMap (List GNode) :=
  files.foldl
    (fun grouped file =>
      let modulePath := getModulePathForFile pOps pkg file rootPath level
      match jsMapGet modulePath grouped with
      | some fs => jsMapSet modulePath (fs ++ [file]) grouped
      | none => jsMapSet modulePath [file] grouped)
    []

/-- `ModuleAggregator.calculateMetrics`: `totalLines` accumulates
`(f.metadata.endLine || 0) - (f.metadata.startLine || 0)` per file — a plain
difference with missing (or zero) values coerced to 0, and no clamping. -/
def calculateMetrics (files : List GNode) : ModuleMetrics :=
  let totalLines : Int := files.foldl
    (fun sum f =>
      let endLine : Int := ((f.metadata.endLine).getD 0 : Nat)
      let startLine : Int := ((f.metadata.startLine).getD 0 : Nat)
      sum + (endLine - startLine))
    0
  { fileCount := files.length
    totalLines := totalLines
    dependencyCount := 0
    dependentCount := 0 }

/-- `ModuleAggregator.generateModuleId`: prefix the module path with
`module-` after replacing every slash or backslash by a dash (a global
regex replace) and stripping at most one leading dash. -/
def generateModuleId (modulePath : String) : String :=
  let slug := strMap (fun c => if c = '/' ∨ c = '\\' then '-' else c) modulePath
  let slug := if strStartsWith slug "-" then strDrop slug 1 else slug
  "module-" ++ slug

/-- `ModuleAggregator.createModule`. -/
def createModule (pOps : PathOps) (modulePath : String) (files : List GNode) : Module :=
  { id := generateModuleId modulePath
    name := pOps.basename modulePath
    path := modulePath
    files := files.map (·.id)
    dependencies := []
    dependents := []
    metrics := calculateMetrics files }

/-- `ModuleAggregator.aggregate`: select eligible file nodes, group them by
level, and create one `Module` per group.  The source is `async` only
because of the `PACKAGE` filesystem walk; with that walk abstracted the
computation is pure.  No branch of this function (or of its callees) throws:
its total type `List Module` reflects the absence of any error path. -/
def aggregate (pOps : PathOps) (pkg : String → String → String)
    (graph : PropertyGraph) (rootPath : String) (config : AggregationConfig) :
    List Module :=
  let codeFiles := ((graph.nodes.filter (fun node => node.type = NodeTypeFILE)).filter
    (fun node => node.domain = "code")).filter (fun node => shouldIncludeFile config node)
  let filesByModule := groupFilesByLevel pOps pkg codeFiles rootPath config.level
  filesByModule.map (fun p => createModule pOps p.1 p.2)

/-! ## Module dependency calculator
(src/domain/services/ModuleDependencyCalculator.ts)

JavaScript mutates `Module` objects through shared references held in
`fileToModule`; the embedding makes the aliasing explicit by keeping the
evolving module states in a list and mapping file ids to list indices
(object identity = index). -/

/-- The `fileToModule` map of `calculate`: for each module, every file id is
mapped to that module (here: to its index in the list, standing for the
object reference). -/
def buildFileToModule (modules : List Module) : JsMap Nat :=
  modules.enum.foldl
    (fun m p => p.2.files.foldl (fun m fileId => jsMapSet fileId p.1 m) m)
    []

/-- The `pathToNodeId` / `nodeIdToPath` maps of `calculate`: only nodes with
truthy `metadata.filePath` that are FILE nodes (tag `file` or label `File`)
are indexed; the path is stored both literally and normalized. -/
def buildPathMaps (pOps : PathOps) (nodes : List GNode) : JsMap String × JsMap String :=
  nodes.foldl
    (fun maps node =>
      match node.metadata.filePath with
      | some filePath =>
        if filePath = "" then maps
        else if node.type = NodeTypeFILE ∨ "File" ∈ node.labels then
          (jsMapSet (pOps.normalize filePath) node.id (jsMapSet filePath node.id maps.1),
           jsMapSet node.id filePath maps.2)
        else maps
      | none => maps)
    ([], [])

/-- The candidate list tried for a relative import, in source order: the
literal resolved path; its normalized form; `.js` suffix replaced by `.ts`;
`.jsx` replaced by `.tsx`; then `.ts`, `.tsx`, `.js`, `/index.ts` and
`/index.js` appended. -/
def resolutionAttempts (pOps : PathOps) (resolved : String) : List String :=
  [resolved,
   pOps.normalize resolved,
   replaceSuffix resolved ".js" ".ts",
   replaceSuffix resolved ".jsx" ".tsx",
   resolved ++ ".ts",
   resolved ++ ".tsx",
   resolved ++ ".js",
   resolved ++ "/index.ts",
   resolved ++ "/index.js"]

/-- Target resolution for an import edge whose `toNodeId` is not a known
file id: first a direct lookup of the raw specifier in `pathToNodeId`; on
failure, if the source file path is known and the specifier is relative,
the resolution attempts are tried in order, the first indexed one winning. -/
def resolveImportTarget (pOps : PathOps) (p2n n2p : JsMap String)
    (fromNodeId targetNodeId : String) : Option String :=
  match jsMapGet targetNodeId p2n with
  | some r => some r
  | none =>
    match jsMapGet fromNodeId n2p with
    | some sourceFilePath =>
      if strStartsWith targetNodeId "./" ∨ strStartsWith targetNodeId "../" then
        let sourceDir := pOps.dirname sourceFilePath
        let resolved := pOps.resolve sourceDir targetNodeId
        (resolutionAttempts pOps resolved).findSome?
          (fun attempt => jsMapGet attempt p2n)
      else none
    | none => none

/-- The evolving state of `calculate`: current module states plus the four
observability counters. -/
structure CalcState where
  mods : List Module
  resolvedCount : Nat
  unresolvedCount : Nat
  sameModuleCount : Nat
  crossModuleCount : Nat
deriving DecidableEq, Repr

/-- The tail of the per-edge processing, once a target node id is in hand:
look up the target module; skip if absent; tally and skip if same module;
otherwise record the matched dependency/dependent pair. -/
def registerEdge (f2m : JsMap Nat) (srcIdx : Nat) (targetNodeId : String)
    (st : CalcState) : CalcState :=
  match jsMapGet targetNodeId f2m with
  | none => st
  | some tgtIdx =>
    let srcMod := st.mods.getD srcIdx defaultModule
    let tgtMod := st.mods.getD tgtIdx defaultModule
    if srcMod.id = tgtMod.id then
      { st with sameModuleCount := st.sameModuleCount + 1 }
    else
      { st with
        crossModuleCount := st.crossModuleCount + 1
        mods := (st.mods.set srcIdx (srcMod.addDependency tgtMod.id)).set
          tgtIdx (tgtMod.addDependent srcMod.id) }

/-- One iteration of `calculate`'s edge loop. -/
def processEdge (pOps : PathOps) (f2m : JsMap Nat) (p2n n2p : JsMap String)
    (st : CalcState) (edge : GEdge) : CalcState :=
  match jsMapGet edge.fromNodeId f2m with
  | none => st
  | some srcIdx =>
    if jsMapHas edge.toNodeId f2m then
      registerEdge f2m srcIdx edge.toNodeId st
    else
      match resolveImportTarget pOps p2n n2p edge.fromNodeId edge.toNodeId with
      | some targetNodeId =>
        registerEdge f2m srcIdx targetNodeId
          { st with resolvedCount := st.resolvedCount + 1 }
      | none => { st with unresolvedCount := st.unresolvedCount + 1 }

/-- `ModuleDependencyCalculator.calculate`: build the maps, process every
IMPORTS edge, then set each module's dependency-count metrics from its
sets.  The source mutates in place and returns `void`; the embedding
returns the final module states and counters. -/
def calculate (pOps : PathOps) (modules : List Module) (graph : PropertyGraph) :
    CalcState :=
  let f2m := buildFileToModule modules
  let maps := buildPathMaps pOps graph.nodes
  let importEdges := graph.edges.filter (fun edge => edge.type = EdgeTypeIMPORTS)
  let st0 : CalcState :=
    { mods := modules, resolvedCount := 0, unresolvedCount := 0
      sameModuleCount := 0, crossModuleCount := 0 }
  let st1 := importEdges.foldl (fun st edge => processEdge pOps f2m maps.1 maps.2 st edge) st0
  { st1 with
    mods := st1.mods.map (fun m =>
      { m with metrics :=
        { m.metrics with
          dependencyCount := m.getDependencyCount
          dependentCount := m.getDependentCount } }) }

/-! ### Transitive-closure queries -/

/-- The `modulesById` map of the query methods
(`new Map(modules.map(m => [m.id, m]))`). -/
def modulesById (modules : List Module) : JsMap Module :=
  modules.foldl (fun m md => jsMapSet md.id md m) []

/-- The dependency successors used by `getTransitiveDependencies`: the
`dependencies` set of the module found by id, nothing for an unknown id. -/
def moduleDeps (modules : List Module) (id : String) : List String :=
  match jsMapGet id (modulesById modules) with
  | some m => m.dependencies
  | none => []

/-- The dependent successors used by `getTransitiveDependents`. -/
def moduleDependents (modules : List Module) (id : String) : List String :=
  match jsMapGet id (modulesById modules) with
  | some m => m.dependents
  | none => []

/-- The mutable state of the `traverse` closure: the `visited` set and the
accumulating `transitive` result set. -/
structure TravSt where
  visited : List String
  transitive : List String
deriving DecidableEq, Repr

/-- The `for (const depId of module.dependencies)` loop of `traverse`: add
each successor to `transitive`, then recurse into it via `step`. -/
def travList (step : String → TravSt → TravSt) : List String → TravSt → TravSt
  | [], st => st
  | depId :: rest, st =>
    travList step rest (step depId { st with transitive := jsSetAdd depId st.transitive })

/-- The recursive `traverse(id)` closure of the transitive queries, with an
explicit fuel bounding the recursion depth: return if visited, otherwise
mark visited and walk the successors.  A fuel-exhausted call returns the
state unchanged; the termination theorem shows the wrappers never hit it. -/
def travStep (deps : String → List String) : Nat → String → TravSt → TravSt
  | 0 => fun _ st => st
  | fuel + 1 => fun id st =>
    if id ∈ st.visited then st
    else travList (travStep deps fuel) (deps id) { st with visited := st.visited ++ [id] }

/-- Every id a traversal over `modules` starting at `moduleId` can touch. -/
def travUniverse (modules : List Module) (moduleId : String) : List String :=
  (moduleId :: (modules.map (fun m => m.id :: (m.dependencies ++ m.dependents))).flatten).dedup

/-- A recursion-depth budget provably sufficient for the traversal. -/
def travFuel (modules : List Module) (moduleId : String) : Nat :=
  (travUniverse modules moduleId).length + 1

/-- `ModuleDependencyCalculator.getTransitiveDependencies`. -/
def getTransitiveDependencies (moduleId : String) (modules : List Module) :
    List String :=
  (travStep (moduleDeps modules) (travFuel modules moduleId) moduleId
    ⟨[], []⟩).transitive

/-- `ModuleDependencyCalculator.getTransitiveDependents`. -/
def getTransitiveDependents (moduleId : String) (modules : List Module) :
    List String :=
  (travStep (moduleDependents modules) (travFuel modules moduleId) moduleId
    ⟨[], []⟩).transitive

/-! ## Module projection (src/domain/entities/ModuleProjection.ts) -/

/-- `ModuleProjectionMetadata` (the `generatedAt: Date` field is modelled as
a timestamp). -/
structure ModuleProjectionMetadata where
  rootPath : String
  aggregationLevel : AggregationLevel
  generatedAt : Nat
  totalFiles : Nat
  totalDependencies : Nat
deriving DecidableEq, Repr

/-- The `ModuleProjection` entity: modules are held in a
`Map<string, Module>` keyed by module id. -/
structure ModuleProjection where
  id : String
  metadata : ModuleProjectionMetadata
  modules : JsMap Module
deriving DecidableEq, Repr

/-- The `ModuleProjection` constructor: seed the map with
`modules.forEach(m => this.modules.set(m.id, m))`. -/
def mkProjection (id : String) (metadata : ModuleProjectionMetadata)
    (modules : List Module) : ModuleProjection :=
  { id, metadata
    modules := modules.foldl (fun m md => jsMapSet md.id md m) [] }

/-- `ModuleProjection.addModule` (`this.modules.set(module.id, module)`). -/
def ModuleProjection.addModule (p : ModuleProjection) (m : Module) :
    ModuleProjection :=
  { p with modules := jsMapSet m.id m p.modules }

/-- `ModuleProjection.getModule` (`this.modules.get(id)`). -/
def ModuleProjection.getModule (p : ModuleProjection) (id : String) :
    Option Module :=
  jsMapGet id p.modules

/-- `ModuleProjection.getModules` (`Array.from(this.modules.values())`). -/
def ModuleProjection.getModules (p : ModuleProjection) : List Module :=
  jsMapValues p.modules

/-- `ModuleProjection.getModuleCount`. -/
def ModuleProjection.getModuleCount (p : ModuleProjection) : Nat :=
  p.modules.length

/-- The mutable state of `getCycles`'s DFS: accumulated cycles, the
`visited` set, the `recursionStack` set and the explicit `currentPath`. -/
structure CycSt where
  cycles : List (List Module)
  visited : List String
  recStack : List String
  currentPath : List Module
deriving DecidableEq, Repr

/-- The `for (const depId of module.dependencies)` loop of `getCycles`'s
`dfs`: recurse (via `dfs`) into unvisited targets; a visited target on the
recursion stack reports the suffix of the current path starting at it as
one cycle. -/
def cycleDfsList (dfs : String → CycSt → CycSt) : List String → CycSt → CycSt
  | [], st => st
  | depId :: rest, st =>
    let st' :=
      if depId ∈ st.visited then
        if depId ∈ st.recStack then
          match st.currentPath.findIdx? (fun m => m.id = depId) with
          | some idx => { st with cycles := st.cycles ++ [st.currentPath.drop idx] }
          | none => st
        else st
      else dfs depId st
    cycleDfsList dfs rest st'

/-- The recursive `dfs(moduleId)` of `getCycles`, fuelled: look the module
up (return silently when absent), mark it visited / on the recursion stack
/ on the current path, walk its dependencies, then pop the path and leave
the recursion stack. -/
def cycleDfs (byId : JsMap Module) : Nat → String → CycSt → CycSt
  | 0 => fun _ st => st
  | fuel + 1 => fun moduleId st =>
    match jsMapGet moduleId byId with
    | none => st
    | some m =>
      let st1 : CycSt :=
        { st with
          visited := jsSetAdd moduleId st.visited
          recStack := jsSetAdd moduleId st.recStack
          currentPath := st.currentPath ++ [m] }
      let st2 := cycleDfsList (cycleDfs byId fuel) m.dependencies st1
      { st2 with
        currentPath := st2.currentPath.dropLast
        recStack := st2.recStack.erase moduleId }

/-- Every id the cycle DFS over projection `p` can touch. -/
def cycUniverse (p : ModuleProjection) : List String :=
  (jsMapKeys p.modules ++ ((jsMapValues p.modules).map (·.dependencies)).flatten).dedup

/-- A recursion-depth budget provably sufficient for the cycle DFS. -/
def cycFuel (p : ModuleProjection) : Nat := (cycUniverse p).length + 1

/-- `ModuleProjection.getCycles` with an explicit fuel: run the DFS from
every not-yet-visited module in map order. -/
def getCyclesFuel (p : ModuleProjection) (fuel : Nat) : List (List Module) :=
  ((jsMapValues p.modules).foldl
    (fun st m => if m.id ∈ st.visited then st else cycleDfs p.modules fuel m.id st)
    ⟨[], [], [], []⟩).cycles

/-- `ModuleProjection.getCycles`. -/
def getCycles (p : ModuleProjection) : List (List Module) :=
  getCyclesFuel p (cycFuel p)

/-- The record returned by `ModuleProjection.getMetrics`.  The JavaScript
number division is modelled over `ℚ`. -/
structure ProjectionMetrics where
  totalModules : Nat
  totalFiles : Nat
  totalDependencies : Nat
  averageDependenciesPerModule : ℚ
  maxDependencies : Nat
  cyclicDependencies : Nat
deriving DecidableEq, Repr

/-- `ModuleProjection.getMetrics`: `Math.max(...counts, 0)` is the maximum
of the dependency counts and `0`, and the average is guarded by
`modules.length > 0` (so the empty projection divides nowhere). -/
def ModuleProjection.getMetrics (p : ModuleProjection) : ProjectionMetrics :=
  let modules := p.getModules
  let totalDeps := (modules.map Module.getDependencyCount).sum
  let maxDeps := (modules.map Module.getDependencyCount).foldr max 0
  let totalFiles := (modules.map (fun m => m.files.length)).sum
  { totalModules := modules.length
    totalFiles := totalFiles
    totalDependencies := totalDeps
    averageDependenciesPerModule :=
      if modules.length > 0 then (totalDeps : ℚ) / (modules.length : ℚ) else 0
    maxDependencies := maxDeps
    cyclicDependencies := (getCycles p).length }

/-! ## Specification-side notions used to state the theorems -/

/-- Reachability in one or more steps along a successor relation given by
`deps` (the graph-theoretic meaning of "transitive dependency"). -/
inductive ReachP (deps : String → List String) : String → String → Prop
  | head (a b : String) : b ∈ deps a → ReachP deps a b
  | tail (a b c : String) : b ∈ deps a → ReachP deps b c → ReachP deps a c

/-- The number of ids of `uni` not yet in the visited list `v` — the
decreasing measure of every visited-set traversal. -/
def unvisited (uni : Finset String) (v : List String) : Nat :=
  (uni.filter (fun x => x ∉ v)).card

/-- No module of the list carries itself in its own relationship sets. -/
def SelfFree (mods : List Module) : Prop :=
  ∀ m ∈ mods, m.id ∉ m.dependencies ∧ m.id ∉ m.dependents

/-- Postcondition of one `traverse(id)` call (from state `st` to `st'`):
the sets only grow, `id` ends up visited, everything new is reachable from
`id`, and every newly visited node has been fully expanded. -/
structure TravPost (deps : String → List String) (id : String) (st st' : TravSt) : Prop where
  vis_mono : st.visited ⊆ st'.visited
  tra_mono : st.transitive ⊆ st'.transitive
  id_vis : id ∈ st'.visited
  vis_sound : ∀ a ∈ st'.visited, a ∈ st.visited ∨ a = id ∨ ReachP deps id a
  tra_sound : ∀ c ∈ st'.transitive, c ∈ st.transitive ∨ ReachP deps id c
  closure : ∀ a ∈ st'.visited, a ∉ st.visited → ∀ b ∈ deps a, b ∈ st'.visited ∧ b ∈ st'.transitive

/-- Postcondition of the successor loop over `ids` (from `st` to `st'`):
every listed id ends up visited and in the result set, and everything new
is reachable from one of them. -/
structure TravListPost (deps : String → List String) (ids : List String)
    (st st' : TravSt) : Prop where
  vis_mono : st.visited ⊆ st'.visited
  tra_mono : st.transitive ⊆ st'.transitive
  els : ∀ d ∈ ids, d ∈ st'.visited ∧ d ∈ st'.transitive
  vis_sound : ∀ a ∈ st'.visited, a ∈ st.visited ∨ ∃ d ∈ ids, a = d ∨ ReachP deps d a
  tra_sound : ∀ c ∈ st'.transitive, c ∈ st.transitive ∨ ∃ d ∈ ids, c = d ∨ ReachP deps d c
  closure : ∀ a ∈ st'.visited, a ∉ st.visited → ∀ b ∈ deps a, b ∈ st'.visited ∧ b ∈ st'.transitive

/-! ## Concrete fixtures used by counterexamples and witnesses -/

/-- A bare module fixture with the given relationship sets. -/
def mkMod (id : String) (files deps dependents : List String) : Module :=
  { id, name := id, path := id, files, dependencies := deps
    dependents := dependents
    metrics := { fileCount := 0, totalLines := 0, dependencyCount := 0, dependentCount := 0 } }

/-- Fixture: module `A` of the two-cycle `A ↔ B`. -/
def cycA : Module := mkMod "A" [] ["B"] ["B"]

/-- Fixture: module `B` of the two-cycle `A ↔ B`. -/
def cycB : Module := mkMod "B" [] ["A"] ["A"]

/-- Fixture: the two-cycle module list. -/
def cycModules : List Module := [cycA, cycB]

/-- Fixture: an arbitrary projection metadata record. -/
def someMeta : ModuleProjectionMetadata :=
  { rootPath := "/", aggregationLevel := .DIRECTORY, generatedAt := 0
    totalFiles := 0, totalDependencies := 0 }

/-- Fixture: the projection holding the two-cycle. -/
def cycProjection : ModuleProjection := mkProjection "p" someMeta cycModules

/-- Fixture: an indexed source file `/src/a.ts` (id `f1`). -/
def lodashImporterNode : GNode :=
  { id := "f1", type := "file", labels := [], domain := "code"
    metadata := { filePath := some "/src/a.ts", startLine := none, endLine := none } }

/-- Fixture: a FILE node whose indexed path is literally `lodash` (id `f2`). -/
def lodashPathNode : GNode :=
  { id := "f2", type := "file", labels := [], domain := "code"
    metadata := { filePath := some "lodash", startLine := none, endLine := none } }

/-- Fixture: module `m1` containing file `f1`. -/
def lodashMod1 : Module := mkMod "m1" ["f1"] [] []

/-- Fixture: module `m2` containing file `f2`. -/
def lodashMod2 : Module := mkMod "m2" ["f2"] [] []

/-- Fixture: the IMPORTS edge from `f1` with the bare specifier `lodash`. -/
def lodashEdge : GEdge :=
  { id := "e1", type := EdgeTypeIMPORTS, fromNodeId := "f1", toNodeId := "lodash" }

/-- Fixture: graph for the bare-specifier scenario. -/
def lodashGraph : PropertyGraph := { nodes := [lodashImporterNode, lodashPathNode], edges := [lodashEdge] }

/-- Fixture: the importing file `/src/a/File.ts` of the relative-import
scenario (spec Scenario D). -/
def relImporterNode : GNode :=
  { id := "fa", type := "file", labels := [], domain := "code"
    metadata := { filePath := some "/src/a/File.ts", startLine := none, endLine := none } }

/-- Fixture: the sibling file `/src/sibling/File.ts`. -/
def relSiblingNode : GNode :=
  { id := "fs", type := "file", labels := [], domain := "code"
    metadata := { filePath := some "/src/sibling/File.ts", startLine := none, endLine := none } }

/-- Fixture: module containing the importing file. -/
def relModA : Module := mkMod "mA" ["fa"] [] []

/-- Fixture: module containing the sibling file. -/
def relModS : Module := mkMod "mS" ["fs"] [] []

/-- Fixture: the relative IMPORTS edge `../sibling/File`. -/
def relEdge : GEdge :=
  { id := "e2", type := EdgeTypeIMPORTS, fromNodeId := "fa", toNodeId := "../sibling/File" }

/-- Fixture: graph for the relative-import scenario. -/
def relGraph : PropertyGraph := { nodes := [relImporterNode, relSiblingNode], edges := [relEdge] }

/-- Fixture: a file node with a `startLine` but no `endLine` (line metadata
partially missing). -/
def partialLinesNode : GNode :=
  { id := "f", type := "file", labels := [], domain := "code"
    metadata := { filePath := some "/src/a.ts", startLine := some 5, endLine := none } }

/-- Fixture: a trivial package-boundary oracle for evaluating `aggregate`. -/
def noPkg : String → String → String := fun filePath _ => posixDirname filePath

/-- Fixture: single-file graph for the aggregation-level scenario. -/
def aggGraph : PropertyGraph := { nodes := [relImporterNode], edges := [] }

/-! ## Basic lemmas about the JavaScript collection models -/

lemma subset_jsSetAdd (x : String) (s : List String) : s ⊆ jsSetAdd x s := by
  unfold jsSetAdd
  split
  · exact fun a ha => ha
  · exact fun a ha => List.mem_append_left _ ha

lemma mem_jsSetAdd_iff (x y : String) (s : List String) :
    y ∈ jsSetAdd x s ↔ y ∈ s ∨ y = x := by
  unfold jsSetAdd
  split
  · rename_i hx
    constructor
    · exact fun h => Or.inl h
    · rintro (h | rfl)
      · exact h
      · exact hx
  · simp [List.mem_append]

lemma self_mem_jsSetAdd (x : String) (s : List String) : x ∈ jsSetAdd x s :=
  (mem_jsSetAdd_iff x x s).2 (Or.inr rfl)

lemma not_mem_jsSetAdd (x y : String) (s : List String) (hne : y ≠ x) (hmem : y ∉ s) :
    y ∉ jsSetAdd x s := by
  rw [mem_jsSetAdd_iff]
  rintro (h | h)
  · exact hmem h
  · exact hne h

lemma jsSetAdd_eq_append (x : String) (s : List String) (h : x ∉ s) :
    jsSetAdd x s = s ++ [x] := by
  unfold jsSetAdd
  simp [h]

lemma jsMapGet_jsMapSet {α : Type} (mid k : String) (v : α) (m : JsMap α) :
    jsMapGet mid (jsMapSet k v m) = if mid = k then some v else jsMapGet mid m := by
  induction m with
  | nil =>
    by_cases h : mid = k <;> simp [jsMapSet, jsMapGet, List.find?, h, eq_comm]
  | cons p rest ih =>
    by_cases hk : p.1 = k
    · by_cases h : mid = k <;>
        simp [jsMapSet, jsMapGet, List.find?, hk, h, eq_comm]
    · by_cases h : mid = p.1
      · subst h
        simp [jsMapSet, jsMapGet, List.find?, hk, if_neg (by simpa [eq_comm] using hk)]
      · have : (decide (p.1 = mid)) = false := by
          simpa using fun hc => h hc.symm
        simp only [jsMapSet, if_neg hk]
        simp only [jsMapGet, List.find?, this]
        simpa [jsMapGet] using ih

lemma mem_of_jsMapGet_eq_some {α : Type} {k : String} {v : α} {m : JsMap α}
    (h : jsMapGet k m = some v) : (k, v) ∈ m := by
  induction m with
  | nil => simp [jsMapGet, List.find?] at h
  | cons p rest ih =>
    by_cases hk : p.1 = k
    · subst hk
      obtain ⟨k', v'⟩ := p
      simp [jsMapGet, List.find?] at h
      subst h
      exact List.mem_cons_self _ _
    · have hkf : (decide (p.1 = k)) = false := by simpa using hk
      simp only [jsMapGet, List.find?, hkf] at h
      exact List.mem_cons_of_mem _ (ih h)

lemma mem_jsMapSet {α : Type} {k' : String} {v' : α} (k : String) (v : α) (m : JsMap α)
    (h : (k', v') ∈ jsMapSet k v m) : (k' = k ∧ v' = v) ∨ (k', v') ∈ m := by
  induction m with
  | nil =>
    simp [jsMapSet] at h
    exact Or.inl ⟨h.1, h.2⟩
  | cons p rest ih =>
    by_cases hk : p.1 = k
    · simp only [jsMapSet, if_pos hk, List.mem_cons] at h
      rcases h with h | h
      · exact Or.inl ⟨congrArg Prod.fst h, congrArg Prod.snd h⟩
      · exact Or.inr (List.mem_cons_of_mem _ h)
    · simp only [jsMapSet, if_neg hk, List.mem_cons] at h
      rcases h with h | h
      · exact Or.inr (List.mem_cons.2 (Or.inl h))
      · rcases ih h with h' | h'
        · exact Or.inl h'
        · exact Or.inr (List.mem_cons_of_mem _ h')

lemma jsMapKeys_cons {α : Type} (p : String × α) (m : JsMap α) :
    jsMapKeys (p :: m) = p.1 :: jsMapKeys m := rfl

lemma jsMapKeys_jsMapSet {α : Type} (k : String) (v : α) (m : JsMap α) :
    jsMapKeys (jsMapSet k v m) =
      if k ∈ jsMapKeys m then jsMapKeys m else jsMapKeys m ++ [k] := by
  induction m with
  | nil => simp [jsMapSet, jsMapKeys]
  | cons p rest ih =>
    by_cases hk : p.1 = k
    · subst hk
      simp [jsMapSet, jsMapKeys_cons]
    · have hset : jsMapSet k v (p :: rest) = p :: jsMapSet k v rest := by
        simp [jsMapSet, hk]
      rw [hset, jsMapKeys_cons, ih, jsMapKeys_cons]
      by_cases hmem : k ∈ jsMapKeys rest
      · rw [if_pos hmem, if_pos (List.mem_cons_of_mem _ hmem)]
      · rw [if_neg hmem,
          if_neg (by
            intro h
            rcases List.mem_cons.1 h with h | h
            · exact hk h.symm
            · exact hmem h)]
        simp

lemma jsMapKeys_nodup_jsMapSet {α : Type} (k : String) (v : α) (m : JsMap α)
    (h : (jsMapKeys m).Nodup) : (jsMapKeys (jsMapSet k v m)).Nodup := by
  rw [jsMapKeys_jsMapSet]
  split
  · exact h
  · rename_i hnot
    simpa [List.nodup_append, hnot] using h

/-- `find?` over an append: the left list is searched first. -/
lemma find?_append_first {α : Type} (p : α → Bool) :
    ∀ (l1 l2 : List α), (l1 ++ l2).find? p =
      match l1.find? p with
      | some a => some a
      | none => l2.find? p := by
  intro l1 l2
  induction l1 with
  | nil => simp
  | cons a rest ih =>
    by_cases h : p a
    · simp [List.find?, h]
    · simp only [List.cons_append, List.find?, Bool.of_not_eq_true h]
      simpa using ih

/-- Folding `jsMapSet md.id md` over a module list: lookup returns the last
inserted module with the queried id, falling back to the initial map. -/
lemma jsMapGet_module_foldl (mid : String) :
    ∀ (l : List Module) (m0 : JsMap Module),
      jsMapGet mid (l.foldl (fun m md => jsMapSet md.id md m) m0) =
        match l.reverse.find? (fun md => md.id = mid) with
        | some md => some md
        | none => jsMapGet mid m0 := by
  intro l
  induction l with
  | nil => simp
  | cons d rest ih =>
    intro m0
    simp only [List.foldl_cons, List.reverse_cons]
    rw [ih, find?_append_first]
    cases hfind : rest.reverse.find? (fun md => md.id = mid) with
    | some md => simp
    | none =>
      have hstep := jsMapGet_jsMapSet mid d.id d m0
      by_cases h : d.id = mid
      · have hd : (decide (d.id = mid)) = true := by simpa using h
        simp only [List.find?, hd]
        rw [hstep, if_pos h.symm]
      · have hd : (decide (d.id = mid)) = false := by simpa using h
        simp only [List.find?, hd]
        rw [hstep, if_neg (fun hc => h hc.symm)]

lemma mem_module_foldl {k : String} {v : Module} :
    ∀ (l : List Module) (m0 : JsMap Module),
      (k, v) ∈ l.foldl (fun m md => jsMapSet md.id md m) m0 →
      (k, v) ∈ m0 ∨ (v ∈ l ∧ k = v.id) := by
  intro l
  induction l with
  | nil => exact fun m0 h => Or.inl h
  | cons d rest ih =>
    intro m0 h
    rcases ih (jsMapSet d.id d m0) h with h' | h'
    · rcases mem_jsMapSet d.id d m0 h' with ⟨hk, hv⟩ | h''
      · subst hv
        exact Or.inr ⟨List.mem_cons_self _ _, hk⟩
      · exact Or.inl h''
    · exact Or.inr ⟨List.mem_cons_of_mem _ h'.1, h'.2⟩

lemma jsMapKeys_nodup_module_foldl :
    ∀ (l : List Module) (m0 : JsMap Module),
      (jsMapKeys m0).Nodup →
      (jsMapKeys (l.foldl (fun m md => jsMapSet md.id md m) m0)).Nodup := by
  intro l
  induction l with
  | nil => exact fun _ h => h
  | cons d rest ih =>
    exact fun m0 h => ih _ (jsMapKeys_nodup_jsMapSet d.id d m0 h)

/-- In a map whose pairs all satisfy `key = value.id`, the id sequence of
the values is the key sequence. -/
lemma jsMapValues_ids_eq_keys {m : JsMap Module}
    (h : ∀ p ∈ m, p.1 = p.2.id) :
    (jsMapValues m).map Module.id = jsMapKeys m := by
  induction m with
  | nil => rfl
  | cons p rest ih =>
    have hp := h p (List.mem_cons_self _ _)
    simp only [jsMapValues, jsMapKeys, List.map_cons, List.map_map] at ih ⊢
    rw [ih (fun q hq => h q (List.mem_cons_of_mem _ hq))]
    simp [hp.symm]

/-- Folding integer increments equals the initial value plus the mapped sum. -/
lemma foldl_add_sum {α : Type} (g : α → Int) :
    ∀ (l : List α) (i : Int), l.foldl (fun s a => s + g a) i = i + (l.map g).sum := by
  intro l
  induction l with
  | nil => simp
  | cons a rest ih =>
    intro i
    simp only [List.foldl_cons, List.map_cons, List.sum_cons]
    rw [ih]
    ring

/-- `findSome?` returns the image of the first element on which `f` fires. -/
lemma findSome?_first {α β : Type} (f : α → Option β) (d : α) :
    ∀ (l : List α) (j : Nat) (b : β), j < l.length →
      (∀ k, k < j → f (l.getD k d) = none) →
      f (l.getD j d) = some b → l.findSome? f = some b := by
  intro l
  induction l with
  | nil =>
    intro j b hj
    simp at hj
  | cons a rest ih =>
    intro j b hj hbefore hat
    cases j with
    | zero =>
      have : f a = some b := hat
      simp [List.findSome?, this]
    | succ j' =>
      have ha : f a = none := hbefore 0 (Nat.succ_pos _)
      simp only [List.findSome?, ha]
      exact ih j' b (Nat.lt_of_succ_lt_succ hj)
        (fun k hk => hbefore (k + 1) (Nat.succ_lt_succ hk)) hat

/-- `findSome?` misses when `f` fires nowhere. -/
lemma findSome?_all_none {α β : Type} (f : α → Option β) :
    ∀ (l : List α), (∀ a ∈ l, f a = none) → l.findSome? f = none := by
  intro l
  induction l with
  | nil => intro _; rfl
  | cons a rest ih =>
    intro h
    have ha : f a = none := h a (List.mem_cons_self _ _)
    simp only [List.findSome?, ha]
    exact ih (fun x hx => h x (List.mem_cons_of_mem _ hx))

/-- Transport a property of all list members (also satisfied by the
placeholder) through `getD`. -/
lemma getD_invariant {P : Module → Prop} {l : List Module}
    (hP : ∀ m ∈ l, P m) (hd : P defaultModule) (i : Nat) :
    P (l.getD i defaultModule) := by
  rcases Nat.lt_or_ge i l.length with h | h
  · rw [List.getD_eq_getElem _ _ h]
    exact hP _ (List.getElem_mem h)
  · rw [List.getD_eq_default _ _ h]
    exact hd

/-! ## Claim theorems: aggregation and projection bookkeeping -/

/-- C9: on a `ModuleProjection` containing zero modules, `getMetrics()`
returns `totalModules = totalFiles = totalDependencies =
averageDependenciesPerModule = maxDependencies = 0`, all well defined (the
average's division is guarded and the empty maximum is `max(..., 0) = 0`). -/
theorem empty_projection_metrics :
    ∀ (pid : String) (meta : ModuleProjectionMetadata),
      (mkProjection pid meta []).getMetrics =
        { totalModules := 0, totalFiles := 0, totalDependencies := 0
          averageDependenciesPerModule := 0, maxDependencies := 0
          cyclicDependencies := 0 } :=
  fun _ _ => rfl

/-- C4 (counterexample): module-id derivation is not injective on paths —
the distinct module paths `a/b` and `a-b` receive the same id
`module-a-b`, because slashes are replaced by dashes. -/
theorem generateModuleId_not_injective :
    generateModuleId "a/b" = generateModuleId "a-b" ∧ "a/b" ≠ "a-b" := by
  decide

/-- C4 (amended): the module-id derivation is a deterministic function of
the module path (`p1 = p2` implies equal ids), but distinct paths can
collide (slash and dash are conflated), so injectivity fails. -/
theorem generateModuleId_deterministic :
    ∀ p1 p2 : String, p1 = p2 → generateModuleId p1 = generateModuleId p2 := by
  intro p1 p2 h
  rw [h]

theorem generateModuleId_deterministic_witness :
    generateModuleId "src/x" = generateModuleId "src/x" :=
  generateModuleId_deterministic "src/x" "src/x" rfl

/-- C7 (counterexample): a file with `startLine = 5` and no `endLine`
contributes `-5`, not `0`: `calculateMetrics` sums the plain differences
with missing values coerced to `0` and no clamping, so `totalLines` drops
below zero. -/
theorem totalLines_negative :
    (calculateMetrics [partialLinesNode]).totalLines = -5 ∧
      ¬(0 ≤ (calculateMetrics [partialLinesNode]).totalLines) := by
  decide

/-- C7 (amended): for every group of files the aggregator computes
`metrics.totalLines` as the sum over the files of
`(endLine or 0) - (startLine or 0)` — a file with partially missing line
metadata can contribute a negative amount, so `totalLines` is not clamped
at zero.  `fileCount` is the number of files. -/
theorem totalLines_plain_sum (files : List GNode) :
    (calculateMetrics files).totalLines =
      (files.map (fun f =>
        ((f.metadata.endLine.getD 0 : Nat) : Int) -
          ((f.metadata.startLine.getD 0 : Nat) : Int))).sum ∧
      (calculateMetrics files).fileCount = files.length := by
  constructor
  · simp only [calculateMetrics]
    rw [foldl_add_sum
      (fun f => ((f.metadata.endLine.getD 0 : Nat) : Int) -
        ((f.metadata.startLine.getD 0 : Nat) : Int)) files 0]
    ring
  · rfl

/-- C3 (counterexample): with `config.level = CUSTOM` (not handled by the
`switch`), `aggregate()` raises no error: on a one-file graph it silently
constructs a module, grouping the file under its directory via the
`default:` fallback. -/
theorem aggregate_custom_builds_modules :
    (aggregate posixOps noPkg aggGraph "/src"
      { level := .CUSTOM, includeTests := false, excludePatterns := [] }).map
        Module.path = ["/src/a"] := by
  decide

/-- C3 (amended): an unrecognized `AggregationLevel` (the `CUSTOM` value)
does not fail fast: `aggregate()` silently behaves exactly as `DIRECTORY`
aggregation, because the `switch`'s `default:` branch returns
`path.dirname(filePath)`.  No error path exists in the aggregator. -/
theorem aggregate_custom_fallback :
    ∀ (pOps : PathOps) (pkg : String → String → String) (graph : PropertyGraph)
      (rootPath : String) (it : Bool) (ep : List String),
      aggregate pOps pkg graph rootPath
          { level := .CUSTOM, includeTests := it, excludePatterns := ep } =
        aggregate pOps pkg graph rootPath
          { level := .DIRECTORY, includeTests := it, excludePatterns := ep } :=
  fun _ _ _ _ _ _ => rfl

/-- C10: a `ModuleProjection` stores modules keyed by id — after seeding the
constructor with any list and performing any sequence of `addModule` calls,
the stored modules have pairwise distinct ids (at most one module per id),
and `getModule(id)` returns exactly the most recently added module with
that id (later additions replace earlier ones). -/
theorem projection_keyed_by_id (pid : String) (meta : ModuleProjectionMetadata)
    (seed adds : List Module) :
    ((adds.foldl ModuleProjection.addModule (mkProjection pid meta seed)).getModules.map
      Module.id).Nodup ∧
    ∀ mid, (adds.foldl ModuleProjection.addModule (mkProjection pid meta seed)).getModule mid =
      (seed ++ adds).reverse.find? (fun md => md.id = mid) := by
  have hmods : ∀ (adds' : List Module) (p : ModuleProjection),
      (adds'.foldl ModuleProjection.addModule p).modules =
        adds'.foldl (fun m md => jsMapSet md.id md m) p.modules := by
    intro adds'
    induction adds' with
    | nil => intro p; rfl
    | cons d rest ih => intro p; exact ih (p.addModule d)
  have hfold : (adds.foldl ModuleProjection.addModule (mkProjection pid meta seed)).modules =
      (seed ++ adds).foldl (fun m md => jsMapSet md.id md m) ([] : JsMap Module) := by
    rw [hmods, List.foldl_append]
    rfl
  constructor
  · have hkeys : (jsMapKeys ((adds.foldl ModuleProjection.addModule
        (mkProjection pid meta seed)).modules)).Nodup := by
      rw [hfold]
      exact jsMapKeys_nodup_module_foldl _ _ (by simp [jsMapKeys])
    have hpairs : ∀ q ∈ (adds.foldl ModuleProjection.addModule
        (mkProjection pid meta seed)).modules, q.1 = q.2.id := by
      intro q hq
      rw [hfold] at hq
      obtain ⟨k, v⟩ := q
      rcases mem_module_foldl (seed ++ adds) [] hq with h | h
      · simp at h
      · exact h.2
    rw [ModuleProjection.getModules, jsMapValues_ids_eq_keys hpairs]
    exact hkeys
  · intro mid
    rw [ModuleProjection.getModule, hfold, jsMapGet_module_foldl]
    cases hfind : (seed ++ adds).reverse.find? (fun md => md.id = mid) with
    | some md => rfl
    | none => rfl

/-! ## Claim theorems: the dependency calculator's edge processing -/

/-- C1 (counterexample): a bare specifier `lodash` imported from an indexed
file is not tallied as unresolved when a FILE node's indexed path is
exactly `lodash`: `calculate()` resolves it through the direct
`pathToNodeId` lookup and records the cross-module dependency, leaving
`unresolvedCount = 0`. -/
theorem bareSpecifier_counterexample :
    "m2" ∈ ((calculate posixOps [lodashMod1, lodashMod2] lodashGraph).mods.getD 0
      defaultModule).dependencies ∧
    (calculate posixOps [lodashMod1, lodashMod2] lodashGraph).unresolvedCount = 0 := by
  decide

/-- C1 (amended): for an IMPORTS edge whose `toId` is a bare (non-relative)
specifier that is not a known file id, `calculate()` first looks the raw
specifier up in the path index: if some FILE node's indexed path equals
the specifier character-for-character, the edge is resolved to that node
(and can produce a dependency); only when that lookup misses is the edge
tallied as unresolved and skipped. -/
theorem bareSpecifier_direct_lookup (pOps : PathOps) (f2m : JsMap Nat)
    (p2n n2p : JsMap String) (st : CalcState) (edge : GEdge) (srcIdx : Nat)
    (hsrc : jsMapGet edge.fromNodeId f2m = some srcIdx)
    (hnotfile : jsMapHas edge.toNodeId f2m = false)
    (hbare : strStartsWith edge.toNodeId "./" = false ∧
      strStartsWith edge.toNodeId "../" = false) :
    processEdge pOps f2m p2n n2p st edge =
      match jsMapGet edge.toNodeId p2n with
      | some nid => registerEdge f2m srcIdx nid
          { st with resolvedCount := st.resolvedCount + 1 }
      | none => { st with unresolvedCount := st.unresolvedCount + 1 } := by
  have hnot : ¬(strStartsWith edge.toNodeId "./" = true ∨
      strStartsWith edge.toNodeId "../" = true) := by
    simp [hbare.1, hbare.2]
  simp only [processEdge, hsrc, hnotfile, Bool.false_eq_true, if_false]
  cases hdirect : jsMapGet edge.toNodeId p2n with
  | some nid =>
    simp [resolveImportTarget, hdirect]
  | none =>
    simp only [resolveImportTarget, hdirect]
    cases hsp : jsMapGet edge.fromNodeId n2p with
    | some srcPath => simp [hsp, hnot]
    | none => simp [hsp]

theorem bareSpecifier_direct_lookup_witness :
    processEdge posixOps (buildFileToModule [lodashMod1, lodashMod2])
        (buildPathMaps posixOps lodashGraph.nodes).1
        (buildPathMaps posixOps lodashGraph.nodes).2
        { mods := [lodashMod1, lodashMod2], resolvedCount := 0, unresolvedCount := 0
          sameModuleCount := 0, crossModuleCount := 0 } lodashEdge =
      registerEdge (buildFileToModule [lodashMod1, lodashMod2]) 0 "f2"
        { mods := [lodashMod1, lodashMod2], resolvedCount := 1, unresolvedCount := 0
          sameModuleCount := 0, crossModuleCount := 0 } := by
  have h := bareSpecifier_direct_lookup posixOps (buildFileToModule [lodashMod1, lodashMod2])
    (buildPathMaps posixOps lodashGraph.nodes).1 (buildPathMaps posixOps lodashGraph.nodes).2
    { mods := [lodashMod1, lodashMod2], resolvedCount := 0, unresolvedCount := 0
      sameModuleCount := 0, crossModuleCount := 0 } lodashEdge 0
    (by decide) (by decide) ⟨by decide, by decide⟩
  exact h.trans (by decide)

/-- C6: for an IMPORTS edge with a relative `toId` (starting `./` or `../`)
whose source file path is indexed — and which neither is a known file id
nor matches the path index directly — the target is resolved by trying the
nine candidates in exactly the claimed order (literal resolved path;
normalized; `.js`→`.ts`; `.jsx`→`.tsx`; then appending `.ts`, `.tsx`,
`.js`, `/index.ts`, `/index.js`): the first candidate present in the path
index wins, and if none matches the edge is tallied unresolved. -/
theorem relative_resolution_order (pOps : PathOps) (f2m : JsMap Nat)
    (p2n n2p : JsMap String) (st : CalcState) (edge : GEdge) (srcIdx : Nat)
    (srcPath : String)
    (hsrc : jsMapGet edge.fromNodeId f2m = some srcIdx)
    (hnotfile : jsMapHas edge.toNodeId f2m = false)
    (hnodirect : jsMapGet edge.toNodeId p2n = none)
    (hsp : jsMapGet edge.fromNodeId n2p = some srcPath)
    (hrel : strStartsWith edge.toNodeId "./" = true ∨
      strStartsWith edge.toNodeId "../" = true) :
    resolutionAttempts pOps (pOps.resolve (pOps.dirname srcPath) edge.toNodeId) =
      [pOps.resolve (pOps.dirname srcPath) edge.toNodeId,
       pOps.normalize (pOps.resolve (pOps.dirname srcPath) edge.toNodeId),
       replaceSuffix (pOps.resolve (pOps.dirname srcPath) edge.toNodeId) ".js" ".ts",
       replaceSuffix (pOps.resolve (pOps.dirname srcPath) edge.toNodeId) ".jsx" ".tsx",
       pOps.resolve (pOps.dirname srcPath) edge.toNodeId ++ ".ts",
       pOps.resolve (pOps.dirname srcPath) edge.toNodeId ++ ".tsx",
       pOps.resolve (pOps.dirname srcPath) edge.toNodeId ++ ".js",
       pOps.resolve (pOps.dirname srcPath) edge.toNodeId ++ "/index.ts",
       pOps.resolve (pOps.dirname srcPath) edge.toNodeId ++ "/index.js"] ∧
    (∀ (j : Nat) (nid : String),
      j < (resolutionAttempts pOps (pOps.resolve (pOps.dirname srcPath) edge.toNodeId)).length →
      (∀ k, k < j →
        jsMapGet ((resolutionAttempts pOps
          (pOps.resolve (pOps.dirname srcPath) edge.toNodeId)).getD k "") p2n = none) →
      jsMapGet ((resolutionAttempts pOps
        (pOps.resolve (pOps.dirname srcPath) edge.toNodeId)).getD j "") p2n = some nid →
      processEdge pOps f2m p2n n2p st edge =
        registerEdge f2m srcIdx nid { st with resolvedCount := st.resolvedCount + 1 }) ∧
    ((∀ a ∈ resolutionAttempts pOps (pOps.resolve (pOps.dirname srcPath) edge.toNodeId),
        jsMapGet a p2n = none) →
      processEdge pOps f2m p2n n2p st edge =
        { st with unresolvedCount := st.unresolvedCount + 1 }) := by
  have hres : resolveImportTarget pOps p2n n2p edge.fromNodeId edge.toNodeId =
      (resolutionAttempts pOps (pOps.resolve (pOps.dirname srcPath) edge.toNodeId)).findSome?
        (fun attempt => jsMapGet attempt p2n) := by
    simp [resolveImportTarget, hnodirect, hsp, hrel]
  refine ⟨rfl, ?_, ?_⟩
  · intro j nid hj hbefore hat
    have hfind := findSome?_first (fun attempt => jsMapGet attempt p2n) ""
      (resolutionAttempts pOps (pOps.resolve (pOps.dirname srcPath) edge.toNodeId))
      j nid hj hbefore hat
    simp only [processEdge, hsrc, hnotfile, Bool.false_eq_true, if_false, hres, hfind]
  · intro hall
    have hfind := findSome?_all_none (fun attempt => jsMapGet attempt p2n)
      (resolutionAttempts pOps (pOps.resolve (pOps.dirname srcPath) edge.toNodeId)) hall
    simp only [processEdge, hsrc, hnotfile, Bool.false_eq_true, if_false, hres, hfind]

theorem relative_resolution_order_witness :
    processEdge posixOps (buildFileToModule [relModA, relModS])
        (buildPathMaps posixOps relGraph.nodes).1
        (buildPathMaps posixOps relGraph.nodes).2
        { mods := [relModA, relModS], resolvedCount := 0, unresolvedCount := 0
          sameModuleCount := 0, crossModuleCount := 0 } relEdge =
      registerEdge (buildFileToModule [relModA, relModS]) 0 "fs"
        { mods := [relModA, relModS], resolvedCount := 1, unresolvedCount := 0
          sameModuleCount := 0, crossModuleCount := 0 } := by
  have h := relative_resolution_order posixOps (buildFileToModule [relModA, relModS])
    (buildPathMaps posixOps relGraph.nodes).1 (buildPathMaps posixOps relGraph.nodes).2
    { mods := [relModA, relModS], resolvedCount := 0, unresolvedCount := 0
      sameModuleCount := 0, crossModuleCount := 0 } relEdge 0 "/src/a/File.ts"
    (by decide) (by decide) (by decide) (by decide) (Or.inr (by decide))
  exact h.2.1 4 "fs" (by decide) (by decide) (by decide)

lemma selfFree_default : defaultModule.id ∉ defaultModule.dependencies ∧
    defaultModule.id ∉ defaultModule.dependents := by
  constructor <;> simp [defaultModule]

lemma registerEdge_selfFree (f2m : JsMap Nat) (srcIdx : Nat) (tid : String)
    (st : CalcState) (h : SelfFree st.mods) :
    SelfFree (registerEdge f2m srcIdx tid st).mods := by
  unfold registerEdge
  cases htgt : jsMapGet tid f2m with
  | none => exact h
  | some tgtIdx =>
    simp only
    split
    · exact h
    · rename_i hid
      intro m hm
      have hsrcP := getD_invariant
        (P := fun m => m.id ∉ m.dependencies ∧ m.id ∉ m.dependents) h selfFree_default srcIdx
      have htgtP := getD_invariant
        (P := fun m => m.id ∉ m.dependencies ∧ m.id ∉ m.dependents) h selfFree_default tgtIdx
      rcases List.mem_or_eq_of_mem_set hm with hm1 | hm1
      · rcases List.mem_or_eq_of_mem_set hm1 with hm2 | hm2
        · exact h m hm2
        · subst hm2
          exact ⟨not_mem_jsSetAdd _ _ _ hid hsrcP.1, hsrcP.2⟩
      · subst hm1
        exact ⟨htgtP.1, not_mem_jsSetAdd _ _ _ (fun hc => hid hc.symm) htgtP.2⟩

lemma processEdge_selfFree (pOps : PathOps) (f2m : JsMap Nat) (p2n n2p : JsMap String)
    (st : CalcState) (edge : GEdge) (h : SelfFree st.mods) :
    SelfFree (processEdge pOps f2m p2n n2p st edge).mods := by
  unfold processEdge
  cases hsrc : jsMapGet edge.fromNodeId f2m with
  | none => exact h
  | some srcIdx =>
    simp only
    by_cases hhas : jsMapHas edge.toNodeId f2m
    · rw [if_pos hhas]
      exact registerEdge_selfFree _ _ _ _ h
    · rw [if_neg hhas]
      cases hres : resolveImportTarget pOps p2n n2p edge.fromNodeId edge.toNodeId with
      | some tid => exact registerEdge_selfFree _ _ _ _ h
      | none => exact h

lemma foldl_processEdge_selfFree (pOps : PathOps) (f2m : JsMap Nat) (p2n n2p : JsMap String) :
    ∀ (edges : List GEdge) (st : CalcState), SelfFree st.mods →
      SelfFree ((edges.foldl (fun st e => processEdge pOps f2m p2n n2p st e) st)).mods := by
  intro edges
  induction edges with
  | nil => exact fun st h => h
  | cons e rest ih =>
    exact fun st h => ih _ (processEdge_selfFree pOps f2m p2n n2p st e h)

/-- C5: after `calculate()` every module's `metrics.dependencyCount` /
`metrics.dependentCount` equal the sizes of its `dependencies` /
`dependents` sets, and — provided the input modules carry no self-reference
(as the aggregator guarantees, creating them with empty sets) — no module's
id is a member of its own `dependencies` or `dependents`, because
same-module edges are skipped before any registration. -/
theorem calculate_invariants (pOps : PathOps) (modules : List Module)
    (graph : PropertyGraph)
    (hclean : ∀ m ∈ modules, m.id ∉ m.dependencies ∧ m.id ∉ m.dependents) :
    ∀ m ∈ (calculate pOps modules graph).mods,
      m.metrics.dependencyCount = m.dependencies.length ∧
      m.metrics.dependentCount = m.dependents.length ∧
      m.id ∉ m.dependencies ∧ m.id ∉ m.dependents := by
  intro m hm
  unfold calculate at hm
  simp only [List.mem_map] at hm
  obtain ⟨m0, hm0, rfl⟩ := hm
  have hsf := foldl_processEdge_selfFree pOps (buildFileToModule modules)
    (buildPathMaps pOps graph.nodes).1 (buildPathMaps pOps graph.nodes).2
    (graph.edges.filter (fun edge => edge.type = EdgeTypeIMPORTS))
    { mods := modules, resolvedCount := 0, unresolvedCount := 0
      sameModuleCount := 0, crossModuleCount := 0 } hclean m0 hm0
  exact ⟨rfl, rfl, hsf.1, hsf.2⟩

theorem calculate_invariants_witness :
    (∀ m ∈ [relModA, relModS], m.id ∉ m.dependencies ∧ m.id ∉ m.dependents) ∧
    (∀ m ∈ (calculate posixOps [relModA, relModS] relGraph).mods,
      m.metrics.dependencyCount = m.dependencies.length ∧
      m.metrics.dependentCount = m.dependents.length ∧
      m.id ∉ m.dependencies ∧ m.id ∉ m.dependents) :=
  ⟨by decide, calculate_invariants posixOps [relModA, relModS] relGraph (by decide)⟩

/-! ## Claim theorems: traversal correctness and termination -/

lemma unvisited_le_of_subset (uni : Finset String) {v1 v2 : List String} (h : v1 ⊆ v2) :
    unvisited uni v2 ≤ unvisited uni v1 := by
  apply Finset.card_le_card
  intro x hx
  rw [Finset.mem_filter] at hx ⊢
  exact ⟨hx.1, fun hm => hx.2 (h hm)⟩

lemma unvisited_append_lt (uni : Finset String) (id : String) (v : List String)
    (hid : id ∈ uni) (hv : id ∉ v) :
    unvisited uni (v ++ [id]) < unvisited uni v := by
  apply Finset.card_lt_card
  rw [Finset.ssubset_iff_of_subset]
  · exact ⟨id, by
      rw [Finset.mem_filter]
      exact ⟨hid, hv⟩, by
      rw [Finset.mem_filter]
      rintro ⟨-, hmem⟩
      exact hmem (List.mem_append_right _ (List.mem_singleton.2 rfl))⟩
  · intro x hx
    rw [Finset.mem_filter] at hx ⊢
    exact ⟨hx.1, fun hm => hx.2 (List.mem_append_left _ hm)⟩

lemma travList_mono (step : String → TravSt → TravSt)
    (hstep : ∀ id st, st.visited ⊆ (step id st).visited ∧
      st.transitive ⊆ (step id st).transitive) :
    ∀ (ids : List String) (st : TravSt),
      st.visited ⊆ (travList step ids st).visited ∧
      st.transitive ⊆ (travList step ids st).transitive := by
  intro ids
  induction ids with
  | nil => exact fun st => ⟨fun a ha => ha, fun a ha => ha⟩
  | cons d rest ih =>
    intro st
    simp only [travList]
    have h1 := hstep d { st with transitive := jsSetAdd d st.transitive }
    have h2 := ih (step d { st with transitive := jsSetAdd d st.transitive })
    constructor
    · exact fun a ha => h2.1 (h1.1 ha)
    · exact fun a ha => h2.2 (h1.2 (subset_jsSetAdd d st.transitive ha))

lemma travStep_mono (deps : String → List String) :
    ∀ (fuel : Nat) (id : String) (st : TravSt),
      st.visited ⊆ (travStep deps fuel id st).visited ∧
      st.transitive ⊆ (travStep deps fuel id st).transitive := by
  intro fuel
  induction fuel with
  | zero => exact fun id st => ⟨fun a ha => ha, fun a ha => ha⟩
  | succ n ih =>
    intro id st
    simp only [travStep]
    split
    · exact ⟨fun a ha => ha, fun a ha => ha⟩
    · have h := travList_mono (travStep deps n) ih (deps id)
        { st with visited := st.visited ++ [id] }
      exact ⟨fun a ha => h.1 (List.mem_append_left _ ha), h.2⟩

lemma travSpec (deps : String → List String) (uni : Finset String)
    (huni : ∀ a, ∀ b ∈ deps a, b ∈ uni) :
    ∀ fuel : Nat,
      (∀ id st, unvisited uni st.visited + 1 ≤ fuel → id ∈ uni →
        TravPost deps id st (travStep deps fuel id st)) ∧
      (∀ ids st, unvisited uni st.visited + 1 ≤ fuel → (∀ d ∈ ids, d ∈ uni) →
        TravListPost deps ids st (travList (travStep deps fuel) ids st)) := by
  intro fuel
  induction fuel with
  | zero =>
    constructor
    · intro id st hfuel
      omega
    · intro ids st hfuel
      omega
  | succ n ih =>
    have hstep : ∀ id st, unvisited uni st.visited + 1 ≤ n + 1 → id ∈ uni →
        TravPost deps id st (travStep deps (n + 1) id st) := by
      intro id st hfuel hid
      simp only [travStep]
      split
      · rename_i hvis
        exact
          { vis_mono := fun a ha => ha
            tra_mono := fun a ha => ha
            id_vis := hvis
            vis_sound := fun a ha => Or.inl ha
            tra_sound := fun c hc => Or.inl hc
            closure := fun a ha hna => absurd ha hna }
      · rename_i hvis
        have hdec : unvisited uni (st.visited ++ [id]) + 1 ≤ n := by
          have := unvisited_append_lt uni id st.visited hid hvis
          omega
        have hpost := ih.2 (deps id) { st with visited := st.visited ++ [id] }
          hdec (fun d hd => huni id d hd)
        set st1 : TravSt := { st with visited := st.visited ++ [id] } with hst1
        set st' := travList (travStep deps n) (deps id) st1 with hst'
        have hid_vis : id ∈ st'.visited :=
          hpost.vis_mono (List.mem_append_right _ (List.mem_singleton.2 rfl))
        refine
          { vis_mono := fun a ha => hpost.vis_mono (List.mem_append_left _ ha)
            tra_mono := hpost.tra_mono
            id_vis := hid_vis
            vis_sound := ?_
            tra_sound := ?_
            closure := ?_ }
        · intro a ha
          rcases hpost.vis_sound a ha with h | ⟨d, hd, h | h⟩
          · rcases List.mem_append.1 h with h | h
            · exact Or.inl h
            · exact Or.inr (Or.inl (List.mem_singleton.1 h))
          · subst h
            exact Or.inr (Or.inr (ReachP.head _ _ hd))
          · exact Or.inr (Or.inr (ReachP.tail _ _ _ hd h))
        · intro c hc
          rcases hpost.tra_sound c hc with h | ⟨d, hd, h | h⟩
          · exact Or.inl h
          · subst h
            exact Or.inr (ReachP.head _ _ hd)
          · exact Or.inr (ReachP.tail _ _ _ hd h)
        · intro a ha hna
          by_cases haid : a = id
          · subst haid
            exact fun b hb => hpost.els b hb
          · have : a ∉ st1.visited := by
              intro hmem
              rcases List.mem_append.1 hmem with h | h
              · exact hna h
              · exact haid (List.mem_singleton.1 h)
            exact hpost.closure a ha this
    refine ⟨hstep, ?_⟩
    intro ids
    induction ids with
    | nil =>
      intro st hfuel hids
      exact
        { vis_mono := fun a ha => ha
          tra_mono := fun a ha => ha
          els := by simp
          vis_sound := fun a ha => Or.inl ha
          tra_sound := fun c hc => Or.inl hc
          closure := fun a ha hna => absurd ha hna }
    | cons d rest ihl =>
      intro st hfuel hids
      simp only [travList]
      set st1 : TravSt := { st with transitive := jsSetAdd d st.transitive } with hst1
      have hpost1 : TravPost deps d st1 (travStep deps (n + 1) d st1) :=
        hstep d st1 hfuel (hids d (List.mem_cons_self _ _))
      set st2 := travStep deps (n + 1) d st1 with hst2
      have hfuel2 : unvisited uni st2.visited + 1 ≤ n + 1 := by
        have hsub : st.visited ⊆ st2.visited := hpost1.vis_mono
        have := unvisited_le_of_subset uni hsub
        omega
      have hpost2 : TravListPost deps rest st2 (travList (travStep deps (n + 1)) rest st2) :=
        ihl st2 hfuel2 (fun x hx => hids x (List.mem_cons_of_mem _ hx))
      set st3 := travList (travStep deps (n + 1)) rest st2 with hst3
      have hd_vis : d ∈ st3.visited := hpost2.vis_mono hpost1.id_vis
      have hd_tra : d ∈ st3.transitive :=
        hpost2.tra_mono (hpost1.tra_mono (self_mem_jsSetAdd d st.transitive))
      refine
        { vis_mono := fun a ha => hpost2.vis_mono (hpost1.vis_mono ha)
          tra_mono := fun a ha =>
            hpost2.tra_mono (hpost1.tra_mono (subset_jsSetAdd d st.transitive ha))
          els := ?_
          vis_sound := ?_
          tra_sound := ?_
          closure := ?_ }
      · intro x hx
        rcases List.mem_cons.1 hx with h | h
        · subst h
          exact ⟨hd_vis, hd_tra⟩
        · exact hpost2.els x h
      · intro a ha
        rcases hpost2.vis_sound a ha with h | ⟨d', hd', h⟩
        · rcases hpost1.vis_sound a h with h' | h'
          · exact Or.inl h'
          · exact Or.inr ⟨d, List.mem_cons_self _ _, h'⟩
        · exact Or.inr ⟨d', List.mem_cons_of_mem _ hd', h⟩
      · intro c hc
        rcases hpost2.tra_sound c hc with h | ⟨d', hd', h⟩
        · rcases hpost1.tra_sound c h with h' | h'
          · rcases (mem_jsSetAdd_iff d c st.transitive).1 h' with h'' | h''
            · exact Or.inl h''
            · exact Or.inr ⟨d, List.mem_cons_self _ _, Or.inl h''⟩
          · exact Or.inr ⟨d, List.mem_cons_self _ _, Or.inr h'⟩
        · exact Or.inr ⟨d', List.mem_cons_of_mem _ hd', h⟩
      · intro a ha hna
        by_cases ha2 : a ∈ st2.visited
        · have hclo := hpost1.closure a ha2 hna
          exact fun b hb => ⟨hpost2.vis_mono (hclo b hb).1, hpost2.tra_mono (hclo b hb).2⟩
        · exact hpost2.closure a ha ha2

lemma mem_modulesById {modules : List Module} {a : String} {m : Module}
    (h : jsMapGet a (modulesById modules) = some m) : m ∈ modules ∧ a = m.id := by
  have hmem := mem_of_jsMapGet_eq_some h
  rcases mem_module_foldl modules [] hmem with h' | h'
  · simp at h'
  · exact h'

lemma moduleDeps_mem_universe (modules : List Module) (moduleId : String) :
    ∀ a, ∀ b ∈ moduleDeps modules a, b ∈ (travUniverse modules moduleId).toFinset := by
  intro a b hb
  unfold moduleDeps at hb
  cases hget : jsMapGet a (modulesById modules) with
  | none => simp [hget] at hb
  | some m =>
    rw [hget] at hb
    have hm := (mem_modulesById hget).1
    rw [List.mem_toFinset]
    unfold travUniverse
    rw [List.mem_dedup]
    refine List.mem_cons_of_mem _ ?_
    rw [List.mem_flatten]
    exact ⟨m.id :: (m.dependencies ++ m.dependents),
      List.mem_map_of_mem _ hm,
      List.mem_cons_of_mem _ (List.mem_append_left _ hb)⟩

lemma moduleDependents_mem_universe (modules : List Module) (moduleId : String) :
    ∀ a, ∀ b ∈ moduleDependents modules a, b ∈ (travUniverse modules moduleId).toFinset := by
  intro a b hb
  unfold moduleDependents at hb
  cases hget : jsMapGet a (modulesById modules) with
  | none => simp [hget] at hb
  | some m =>
    rw [hget] at hb
    have hm := (mem_modulesById hget).1
    rw [List.mem_toFinset]
    unfold travUniverse
    rw [List.mem_dedup]
    refine List.mem_cons_of_mem _ ?_
    rw [List.mem_flatten]
    exact ⟨m.id :: (m.dependencies ++ m.dependents),
      List.mem_map_of_mem _ hm,
      List.mem_cons_of_mem _ (List.mem_append_right _ hb)⟩

lemma moduleId_mem_universe (modules : List Module) (moduleId : String) :
    moduleId ∈ (travUniverse modules moduleId).toFinset := by
  rw [List.mem_toFinset]
  unfold travUniverse
  rw [List.mem_dedup]
  exact List.mem_cons_self _ _

lemma travFuel_sufficient (modules : List Module) (moduleId : String) :
    unvisited (travUniverse modules moduleId).toFinset [] + 1 ≤ travFuel modules moduleId := by
  unfold travFuel unvisited
  have h1 : ((travUniverse modules moduleId).toFinset.filter
      (fun x => x ∉ ([] : List String))) = (travUniverse modules moduleId).toFinset := by
    apply Finset.filter_true_of_mem
    intro x _
    simp
  rw [h1]
  have := (travUniverse modules moduleId).toFinset_card_le
  omega

/-- C2 (amended): `getTransitiveDependencies(moduleId, modules)` returns
exactly the set of ids reachable from `moduleId` in one or more steps of
the `dependencies` relation.  Consequently an unknown `moduleId` (no
dependencies) yields the empty set, but the origin IS included whenever it
lies on a dependency cycle (it is then reachable from itself). -/
theorem transitiveDependencies_reachable (modules : List Module) (moduleId : String) :
    ∀ c, c ∈ getTransitiveDependencies moduleId modules ↔
      ReachP (moduleDeps modules) moduleId c := by
  intro c
  have post := (travSpec (moduleDeps modules) (travUniverse modules moduleId).toFinset
    (moduleDeps_mem_universe modules moduleId) (travFuel modules moduleId)).1
    moduleId ⟨[], []⟩ (travFuel_sufficient modules moduleId)
    (moduleId_mem_universe modules moduleId)
  constructor
  · intro h
    rcases post.tra_sound c h with h' | h'
    · simp at h'
    · exact h'
  · intro hreach
    have key : ∀ x y, ReachP (moduleDeps modules) x y →
        x ∈ (travStep (moduleDeps modules) (travFuel modules moduleId) moduleId
          ⟨[], []⟩).visited →
        y ∈ (travStep (moduleDeps modules) (travFuel modules moduleId) moduleId
          ⟨[], []⟩).transitive := by
      intro x y hr
      induction hr with
      | head a b hb =>
        intro hx
        exact (post.closure a hx (by simp) b hb).2
      | tail a b z hb _ ih =>
        intro hx
        exact ih ((post.closure a hx (by simp) b hb).1)
    exact key moduleId c hreach post.id_vis

/-- C2 (counterexample): on the two-cycle `A ↔ B`,
`getTransitiveDependencies("A")` returns `{B, A}` — it contains the origin
`A`, contradicting the claim that the origin is excluded even on a cycle. -/
theorem transitiveDependencies_origin_counterexample :
    "A" ∈ getTransitiveDependencies "A" cycModules ∧
    getTransitiveDependencies "A" cycModules = ["B", "A"] := by
  constructor <;> decide

lemma travStep_stab (deps : String → List String) (uni : Finset String)
    (huni : ∀ a, ∀ b ∈ deps a, b ∈ uni) :
    ∀ fuel : Nat,
      (∀ id st, unvisited uni st.visited + 1 ≤ fuel → id ∈ uni →
        travStep deps (fuel + 1) id st = travStep deps fuel id st) ∧
      (∀ ids st, unvisited uni st.visited + 1 ≤ fuel → (∀ d ∈ ids, d ∈ uni) →
        travList (travStep deps (fuel + 1)) ids st = travList (travStep deps fuel) ids st) := by
  intro fuel
  induction fuel with
  | zero =>
    constructor
    · intro id st hfuel
      omega
    · intro ids st hfuel
      omega
  | succ n ih =>
    have hstep : ∀ id st, unvisited uni st.visited + 1 ≤ n + 1 → id ∈ uni →
        travStep deps (n + 2) id st = travStep deps (n + 1) id st := by
      intro id st hfuel hid
      by_cases hvis : id ∈ st.visited
      · simp only [travStep, if_pos hvis]
      · simp only [travStep, if_neg hvis]
        have hdec : unvisited uni (st.visited ++ [id]) + 1 ≤ n := by
          have := unvisited_append_lt uni id st.visited hid hvis
          omega
        exact ih.2 (deps id) { st with visited := st.visited ++ [id] } hdec
          (fun d hd => huni id d hd)
    refine ⟨hstep, ?_⟩
    intro ids
    induction ids with
    | nil => intro st _ _; rfl
    | cons d rest ihl =>
      intro st hfuel hids
      simp only [travList]
      rw [hstep d { st with transitive := jsSetAdd d st.transitive } hfuel
        (hids d (List.mem_cons_self _ _))]
      apply ihl
      · have hsub : st.visited ⊆ (travStep deps (n + 1) d
            { st with transitive := jsSetAdd d st.transitive }).visited :=
          (travStep_mono deps (n + 1) d { st with transitive := jsSetAdd d st.transitive }).1
        have := unvisited_le_of_subset uni hsub
        omega
      · exact fun x hx => hids x (List.mem_cons_of_mem _ hx)

lemma travStep_fuel_ge (deps : String → List String) (uni : Finset String)
    (huni : ∀ a, ∀ b ∈ deps a, b ∈ uni) (id : String) (st : TravSt) (hid : id ∈ uni)
    (base : Nat) (hbase : unvisited uni st.visited + 1 ≤ base) :
    ∀ fuel, base ≤ fuel → travStep deps fuel id st = travStep deps base id st := by
  intro fuel
  induction fuel with
  | zero =>
    intro h
    have : base = 0 := Nat.le_zero.1 h
    rw [this]
  | succ n ihn =>
    intro h
    rcases Nat.lt_or_ge base (n + 1) with hlt | hge
    · have hbn : base ≤ n := Nat.lt_succ_iff.1 hlt
      rw [(travStep_stab deps uni huni n).1 id st (le_trans hbase hbn) hid]
      exact ihn hbn
    · have : base = n + 1 := le_antisymm h hge
      rw [this]

lemma cycleDfsList_visited_mono (dfs : String → CycSt → CycSt)
    (hdfs : ∀ id st, st.visited ⊆ (dfs id st).visited) :
    ∀ (ids : List String) (st : CycSt), st.visited ⊆ (cycleDfsList dfs ids st).visited := by
  intro ids
  induction ids with
  | nil => exact fun st a ha => ha
  | cons d rest ih =>
    intro st
    simp only [cycleDfsList]
    intro a ha
    apply ih
    split
    · split
      · split <;> exact ha
      · exact ha
    · exact hdfs d st ha

lemma cycleDfs_visited_mono (byId : JsMap Module) :
    ∀ (fuel : Nat) (id : String) (st : CycSt),
      st.visited ⊆ (cycleDfs byId fuel id st).visited := by
  intro fuel
  induction fuel with
  | zero => exact fun id st a ha => ha
  | succ n ih =>
    intro id st a ha
    simp only [cycleDfs]
    cases hget : jsMapGet id byId with
    | none => exact ha
    | some m =>
      simp only
      exact cycleDfsList_visited_mono (cycleDfs byId n) (ih) m.dependencies
        { st with
          visited := jsSetAdd id st.visited
          recStack := jsSetAdd id st.recStack
          currentPath := st.currentPath ++ [m] }
        (subset_jsSetAdd id st.visited ha)

lemma cycleDfs_succ (byId : JsMap Module) (fuel : Nat) (id : String) (st : CycSt) :
    cycleDfs byId (fuel + 1) id st =
      match jsMapGet id byId with
      | none => st
      | some m =>
        let st1 : CycSt :=
          { st with
            visited := jsSetAdd id st.visited
            recStack := jsSetAdd id st.recStack
            currentPath := st.currentPath ++ [m] }
        let st2 := cycleDfsList (cycleDfs byId fuel) m.dependencies st1
        { st2 with
          currentPath := st2.currentPath.dropLast
          recStack := st2.recStack.erase id } := rfl

lemma cycleDfs_stab (byId : JsMap Module) (uni : Finset String)
    (huniKey : ∀ k m, jsMapGet k byId = some m →
      k ∈ uni ∧ ∀ b ∈ m.dependencies, b ∈ uni) :
    ∀ fuel : Nat,
      (∀ id st, unvisited uni st.visited + 1 ≤ fuel → id ∉ st.visited →
        cycleDfs byId (fuel + 1) id st = cycleDfs byId fuel id st) ∧
      (∀ ids st, unvisited uni st.visited + 1 ≤ fuel →
        cycleDfsList (cycleDfs byId (fuel + 1)) ids st =
          cycleDfsList (cycleDfs byId fuel) ids st) := by
  intro fuel
  induction fuel with
  | zero =>
    constructor
    · intro id st hfuel
      omega
    · intro ids st hfuel
      omega
  | succ n ih =>
    have hstep : ∀ id st, unvisited uni st.visited + 1 ≤ n + 1 → id ∉ st.visited →
        cycleDfs byId (n + 2) id st = cycleDfs byId (n + 1) id st := by
      intro id st hfuel hvis
      rw [cycleDfs_succ byId (n + 1) id st, cycleDfs_succ byId n id st]
      cases hget : jsMapGet id byId with
      | none => rfl
      | some m =>
        simp only
        have hid : id ∈ uni := (huniKey id m hget).1
        have hadd : jsSetAdd id st.visited = st.visited ++ [id] :=
          jsSetAdd_eq_append id st.visited hvis
        have hdec : unvisited uni (jsSetAdd id st.visited) + 1 ≤ n := by
          rw [hadd]
          have := unvisited_append_lt uni id st.visited hid hvis
          omega
        rw [ih.2 m.dependencies
          { st with
            visited := jsSetAdd id st.visited
            recStack := jsSetAdd id st.recStack
            currentPath := st.currentPath ++ [m] } hdec]
    refine ⟨hstep, ?_⟩
    intro ids
    induction ids with
    | nil => intro st _; rfl
    | cons d rest ihl =>
      intro st hfuel
      simp only [cycleDfsList]
      by_cases hvis : d ∈ st.visited
      · simp only [if_pos hvis]
        split
        · split
          · apply ihl
            simpa using hfuel
          · apply ihl
            simpa using hfuel
        · exact ihl st hfuel
      · simp only [if_neg hvis]
        rw [hstep d st hfuel hvis]
        apply ihl
        have hsub : st.visited ⊆ (cycleDfs byId (n + 1) d st).visited :=
          cycleDfs_visited_mono byId (n + 1) d st
        have := unvisited_le_of_subset uni hsub
        omega

lemma cycleDfs_fuel_ge (byId : JsMap Module) (uni : Finset String)
    (huniKey : ∀ k m, jsMapGet k byId = some m →
      k ∈ uni ∧ ∀ b ∈ m.dependencies, b ∈ uni)
    (id : String) (st : CycSt) (hvis : id ∉ st.visited)
    (base : Nat) (hbase : unvisited uni st.visited + 1 ≤ base) :
    ∀ fuel, base ≤ fuel → cycleDfs byId fuel id st = cycleDfs byId base id st := by
  intro fuel
  induction fuel with
  | zero =>
    intro h
    have : base = 0 := Nat.le_zero.1 h
    rw [this]
  | succ n ihn =>
    intro h
    rcases Nat.lt_or_ge base (n + 1) with hlt | hge
    · have hbn : base ≤ n := Nat.lt_succ_iff.1 hlt
      rw [(cycleDfs_stab byId uni huniKey n).1 id st (le_trans hbase hbn) hvis]
      exact ihn hbn
    · have : base = n + 1 := le_antisymm h hge
      rw [this]

lemma cycleFold_stab (byId : JsMap Module) (uni : Finset String)
    (huniKey : ∀ k m, jsMapGet k byId = some m →
      k ∈ uni ∧ ∀ b ∈ m.dependencies, b ∈ uni) :
    ∀ (ms : List Module) (st : CycSt) (fuel : Nat), unvisited uni st.visited + 1 ≤ fuel →
      ms.foldl (fun st m => if m.id ∈ st.visited then st else cycleDfs byId (fuel + 1) m.id st) st =
        ms.foldl (fun st m => if m.id ∈ st.visited then st else cycleDfs byId fuel m.id st) st := by
  intro ms
  induction ms with
  | nil => intro st fuel _; rfl
  | cons m rest ih =>
    intro st fuel hfuel
    simp only [List.foldl_cons]
    by_cases hvis : m.id ∈ st.visited
    · rw [if_pos hvis, if_pos hvis]
      exact ih st fuel hfuel
    · rw [if_neg hvis, if_neg hvis,
        (cycleDfs_stab byId uni huniKey fuel).1 m.id st hfuel hvis]
      apply ih
      have hsub : st.visited ⊆ (cycleDfs byId fuel m.id st).visited :=
        cycleDfs_visited_mono byId fuel m.id st
      have := unvisited_le_of_subset uni hsub
      omega

lemma cycUniverse_key (p : ModuleProjection) :
    ∀ k m, jsMapGet k p.modules = some m →
      k ∈ (cycUniverse p).toFinset ∧ ∀ b ∈ m.dependencies, b ∈ (cycUniverse p).toFinset := by
  intro k m hget
  have hmem := mem_of_jsMapGet_eq_some hget
  constructor
  · rw [List.mem_toFinset]
    unfold cycUniverse
    rw [List.mem_dedup]
    apply List.mem_append_left
    exact List.mem_map_of_mem _ hmem
  · intro b hb
    rw [List.mem_toFinset]
    unfold cycUniverse
    rw [List.mem_dedup]
    apply List.mem_append_right
    rw [List.mem_flatten]
    refine ⟨m.dependencies, ?_, hb⟩
    rw [List.mem_map]
    exact ⟨m, List.mem_map_of_mem _ hmem, rfl⟩

lemma cycFuel_sufficient (p : ModuleProjection) :
    unvisited (cycUniverse p).toFinset [] + 1 ≤ cycFuel p := by
  unfold cycFuel unvisited
  have h1 : ((cycUniverse p).toFinset.filter (fun x => x ∉ ([] : List String))) =
      (cycUniverse p).toFinset := by
    apply Finset.filter_true_of_mem
    intro x _
    simp
  rw [h1]
  have := (cycUniverse p).toFinset_card_le
  omega

lemma getCyclesFuel_ge (p : ModuleProjection) :
    ∀ fuel, cycFuel p ≤ fuel → getCyclesFuel p fuel = getCycles p := by
  intro fuel
  induction fuel with
  | zero =>
    intro h
    have h0 : cycFuel p = 0 := Nat.le_zero.1 h
    unfold getCycles
    rw [h0]
  | succ n ihn =>
    intro h
    rcases Nat.lt_or_ge (cycFuel p) (n + 1) with hlt | hge
    · have hbn : cycFuel p ≤ n := Nat.lt_succ_iff.1 hlt
      have hstab := cycleFold_stab p.modules (cycUniverse p).toFinset (cycUniverse_key p)
        (jsMapValues p.modules) ⟨[], [], [], []⟩ n
        (le_trans (cycFuel_sufficient p) hbn)
      unfold getCyclesFuel
      rw [hstab]
      exact ihn hbn
    · have : cycFuel p = n + 1 := le_antisymm h hge
      unfold getCycles
      rw [this]

lemma jsSetAdd_nodup (x : String) (s : List String) (h : s.Nodup) : (jsSetAdd x s).Nodup := by
  unfold jsSetAdd
  split
  · exact h
  · rename_i hx
    simp [List.nodup_append, h, hx]

lemma travList_nodup (step : String → TravSt → TravSt)
    (hstep : ∀ id st, st.visited.Nodup → (step id st).visited.Nodup) :
    ∀ (ids : List String) (st : TravSt), st.visited.Nodup →
      (travList step ids st).visited.Nodup := by
  intro ids
  induction ids with
  | nil => exact fun st h => h
  | cons d rest ih =>
    intro st h
    simp only [travList]
    exact ih _ (hstep d { st with transitive := jsSetAdd d st.transitive } h)

lemma travStep_nodup (deps : String → List String) :
    ∀ (fuel : Nat) (id : String) (st : TravSt), st.visited.Nodup →
      (travStep deps fuel id st).visited.Nodup := by
  intro fuel
  induction fuel with
  | zero => exact fun id st h => h
  | succ n ih =>
    intro id st h
    simp only [travStep]
    split
    · exact h
    · rename_i hvis
      apply travList_nodup (travStep deps n) ih
      simp [List.nodup_append, h, hvis]

lemma cycleDfsList_nodup (dfs : String → CycSt → CycSt)
    (hdfs : ∀ id st, st.visited.Nodup → (dfs id st).visited.Nodup) :
    ∀ (ids : List String) (st : CycSt), st.visited.Nodup →
      (cycleDfsList dfs ids st).visited.Nodup := by
  intro ids
  induction ids with
  | nil => exact fun st h => h
  | cons d rest ih =>
    intro st h
    simp only [cycleDfsList]
    apply ih
    split
    · split
      · split <;> exact h
      · exact h
    · exact hdfs d st h

lemma cycleDfs_nodup (byId : JsMap Module) :
    ∀ (fuel : Nat) (id : String) (st : CycSt), st.visited.Nodup →
      (cycleDfs byId fuel id st).visited.Nodup := by
  intro fuel
  induction fuel with
  | zero => exact fun id st h => h
  | succ n ih =>
    intro id st h
    rw [cycleDfs_succ]
    cases hget : jsMapGet id byId with
    | none => exact h
    | some m =>
      simp only
      exact cycleDfsList_nodup (cycleDfs byId n) ih m.dependencies
        { st with
          visited := jsSetAdd id st.visited
          recStack := jsSetAdd id st.recStack
          currentPath := st.currentPath ++ [m] }
        (jsSetAdd_nodup id st.visited h)

lemma cycleFold_nodup (byId : JsMap Module) (fuel : Nat) :
    ∀ (ms : List Module) (st : CycSt), st.visited.Nodup →
      (ms.foldl (fun st m => if m.id ∈ st.visited then st else cycleDfs byId fuel m.id st)
        st).visited.Nodup := by
  intro ms
  induction ms with
  | nil => exact fun st h => h
  | cons m rest ih =>
    intro st h
    simp only [List.foldl_cons]
    by_cases hvis : m.id ∈ st.visited
    · rw [if_pos hvis]
      exact ih st h
    · rw [if_neg hvis]
      exact ih _ (cycleDfs_nodup byId fuel m.id st h)

/-- C8: for every finite module list and projection — cyclic or not — the
three traversals terminate: any recursion-depth budget at least the
provably sufficient bounds (`travFuel`, `cycFuel`, one more than the
number of distinct ids involved) produces the same result as the bound
itself for `getTransitiveDependencies`, `getTransitiveDependents` and
`getCycles`, and the visited list of each traversal is duplicate-free —
each module id is visited at most once thanks to the visited set. -/
theorem traversal_termination (modules : List Module) (moduleId : String)
    (p : ModuleProjection) (fuel : Nat)
    (hdeps : travFuel modules moduleId ≤ fuel) (hcyc : cycFuel p ≤ fuel) :
    (travStep (moduleDeps modules) fuel moduleId ⟨[], []⟩).transitive =
      getTransitiveDependencies moduleId modules ∧
    (travStep (moduleDependents modules) fuel moduleId ⟨[], []⟩).transitive =
      getTransitiveDependents moduleId modules ∧
    getCyclesFuel p fuel = getCycles p ∧
    (travStep (moduleDeps modules) fuel moduleId ⟨[], []⟩).visited.Nodup ∧
    (travStep (moduleDependents modules) fuel moduleId ⟨[], []⟩).visited.Nodup ∧
    ((jsMapValues p.modules).foldl
      (fun st m => if m.id ∈ st.visited then st else cycleDfs p.modules fuel m.id st)
      ⟨[], [], [], []⟩).visited.Nodup := by
  refine ⟨?_, ?_, ?_, ?_, ?_, ?_⟩
  · rw [travStep_fuel_ge (moduleDeps modules) (travUniverse modules moduleId).toFinset
      (moduleDeps_mem_universe modules moduleId) moduleId ⟨[], []⟩
      (moduleId_mem_universe modules moduleId) (travFuel modules moduleId)
      (travFuel_sufficient modules moduleId) fuel hdeps]
    rfl
  · rw [travStep_fuel_ge (moduleDependents modules) (travUniverse modules moduleId).toFinset
      (moduleDependents_mem_universe modules moduleId) moduleId ⟨[], []⟩
      (moduleId_mem_universe modules moduleId) (travFuel modules moduleId)
      (travFuel_sufficient modules moduleId) fuel hdeps]
    rfl
  · exact getCyclesFuel_ge p fuel hcyc
  · exact travStep_nodup (moduleDeps modules) fuel moduleId ⟨[], []⟩ List.nodup_nil
  · exact travStep_nodup (moduleDependents modules) fuel moduleId ⟨[], []⟩ List.nodup_nil
  · exact cycleFold_nodup p.modules fuel (jsMapValues p.modules) ⟨[], [], [], []⟩
      List.nodup_nil

theorem traversal_termination_witness :
    travFuel cycModules "A" ≤ 9 ∧ cycFuel cycProjection ≤ 9 ∧
    ((travStep (moduleDeps cycModules) 9 "A" ⟨[], []⟩).transitive =
      getTransitiveDependencies "A" cycModules ∧
    (travStep (moduleDependents cycModules) 9 "A" ⟨[], []⟩).transitive =
      getTransitiveDependents "A" cycModules ∧
    getCyclesFuel cycProjection 9 = getCycles cycProjection ∧
    (travStep (moduleDeps cycModules) 9 "A" ⟨[], []⟩).visited.Nodup ∧
    (travStep (moduleDependents cycModules) 9 "A" ⟨[], []⟩).visited.Nodup ∧
    ((jsMapValues cycProjection.modules).foldl
      (fun st m => if m.id ∈ st.visited then st else cycleDfs cycProjection.modules 9 m.id st)
      ⟨[], [], [], []⟩).visited.Nodup) :=
  ⟨by decide, by decide,
    traversal_termination cycModules "A" cycProjection 9 (by decide) (by decide)⟩

end C3
